import Mathlib

/-!
Verification of the tutoring-room access-queue coordinator
(`src/bot/core/tutoring_queue.py`).

The coordinator's in-memory state (the registry `room_id -> RoomQueue`) is
embedded as a function `String → Option RoomQueue`.  Every public coroutine of
`TutoringQueueManager` runs its critical section and any follow-up
`_notify_next` call to completion before returning, so each operation is
embedded as a pure state transformer; the expiry of a pending-offer timeout
(`_handle_timeout`) is a separate step.  Python truthiness is modelled
explicitly: `not queue.pending_user` is true for `None` and for the empty
string, and `a or b` on strings yields `b` when `a` is empty.
-/

namespace TutoringQueue

inductive QueueState where
  | free
  | occupied
deriving DecidableEq, Repr

structure QueueEntry where
  user_mxid : String
  notify_room_id : String
  requested_at : Nat
deriving DecidableEq, Repr

structure RoomQueue where
  room_id : String
  teacher_mxid : String
  teacher_label : String
  teacher_localpart : String
  entries : List QueueEntry
  state : QueueState
  pending_user : Option String
  pending_task : Option String
  active_user : Option String
deriving DecidableEq, Repr

/-- The coordinator's registry `self._queues : Dict[str, RoomQueue]`. -/
abbrev Registry := String → Option RoomQueue

def emptyReg : Registry := fun _ => none

def getQ (s : Registry) (room : String) : Option RoomQueue := s room

def upd (s : Registry) (room : String) (q : RoomQueue) : Registry :=
  fun r => if r = room then some q else s r

def del (s : Registry) (room : String) : Registry :=
  fun r => if r = room then none else s r

/-- Python truthiness of an `Optional[str]`: `None` and `""` are falsy. -/
abbrev optTruthy (o : Option String) : Prop := o.getD "" ≠ ""

/-- The guard of `_maybe_cleanup_locked`: a fully idle queue. -/
abbrev IdleQ (q : RoomQueue) : Prop :=
  q.entries = [] ∧ ¬ optTruthy q.pending_user ∧ ¬ optTruthy q.active_user

/-- `TutoringQueueManager._maybe_cleanup_locked`. -/
def maybeCleanup (s : Registry) (room : String) : Registry :=
  match getQ s room with
  | none => s
  | some q => if IdleQ q then del s room else s

/-- `TutoringQueueManager._notify_next` (state part; the outbound chat message
is pure I/O).  The scheduled timeout task is recorded as the offered user. -/
def notifyNext (s : Registry) (room : String) : Registry :=
  match getQ s room with
  | none => s
  | some q =>
    if q.state ≠ QueueState.free then s
    else
      match q.entries with
      | [] => s
      | e :: _ =>
        if q.pending_user = some e.user_mxid ∨ q.active_user = some e.user_mxid then s
        else
          upd s room
            { q with pending_user := some e.user_mxid, pending_task := some e.user_mxid }

/-- The metadata refresh on an existing queue (`a or b` keeps `b` when the new
value `a` is the empty string). -/
def refreshMeta (q : RoomQueue) (tm tl tlp : String) : RoomQueue :=
  { q with
    teacher_label := if tl ≠ "" then tl else q.teacher_label,
    teacher_localpart := if tlp ≠ "" then tlp else q.teacher_localpart,
    teacher_mxid := if tm ≠ "" then tm else q.teacher_mxid }

/-- 1-based position of the first entry of user `u`, mirroring the scan
`for idx, entry in enumerate(queue.entries)`. -/
def posOf : List QueueEntry → String → Option Nat
  | [], _ => none
  | e :: t, u => if e.user_mxid = u then some 1 else (posOf t u).map (· + 1)

/-- Removal of the first entry of user `u` (the `pop(idx); break` loop of
`leave_queue`). -/
def removeFirst : List QueueEntry → String → List QueueEntry
  | [], _ => []
  | e :: t, u => if e.user_mxid = u then t else e :: removeFirst t u

/-- The common body of `enqueue` after the lookup-or-create of the queue:
the duplicate scan, the append, and the conditional hand-off to
`_notify_next`. -/
def enqueueCore (s : Registry) (room : String) (q : RoomQueue) (u nt : String)
    (now : Nat) : Registry × Nat × Bool :=
  match posOf q.entries u with
  | some p => (upd s room q, p, false)
  | none =>
    let q2 := { q with entries := q.entries ++ [⟨u, nt, now⟩] }
    let pos := q2.entries.length
    let s2 := upd s room q2
    if q2.state = QueueState.free ∧ ¬ optTruthy q2.pending_user ∧ pos = 1 then
      (notifyNext s2 room, pos, true)
    else (s2, pos, true)

/-- `TutoringQueueManager.enqueue`; returns the new registry, the 1-based
position and the `added` flag. -/
def enqueue (s : Registry) (room tm tl tlp u nt : String) (now : Nat) :
    Registry × Nat × Bool :=
  match getQ s room with
  | none =>
    enqueueCore s room (RoomQueue.mk room tm tl tlp [] QueueState.free none none none)
      u nt now
  | some q0 => enqueueCore s room (refreshMeta q0 tm tl tlp) u nt now

def confirmMsgFail : String :=
  "No estás al frente de la cola o no tienes una invitación activa."

def confirmMsgOk : String := "Acceso confirmado. ¡Aprovecha tu tutoría!"

/-- `TutoringQueueManager.confirm_access`. -/
def confirmAccess (s : Registry) (room u : String) : Registry × Bool × String :=
  match getQ s room with
  | none => (s, false, confirmMsgFail)
  | some q =>
    if q.pending_user ≠ some u then (s, false, confirmMsgFail)
    else
      (upd s room
        { q with state := QueueState.occupied, active_user := some u,
                 pending_user := none, pending_task := none },
       true, confirmMsgOk)

def noQueueMsg : String := "No existe una cola para esta sala."

/-- `TutoringQueueManager.release_current`.  On an unknown room the code
returns `(False, "No existe una cola para esta sala.")`; the second component
therefore carries either that message or the removed user's mxid. -/
def releaseCurrent (s : Registry) (room : String) : Registry × Bool × Option String :=
  match getQ s room with
  | none => (s, false, some noQueueMsg)
  | some q =>
    let removed := q.entries.head?.map (·.user_mxid)
    let q2 := { q with entries := q.entries.tail, active_user := none,
                       pending_user := none, pending_task := none,
                       state := QueueState.free }
    let s2 := maybeCleanup (upd s room q2) room
    if q2.entries ≠ [] then (notifyNext s2 room, true, removed)
    else (s2, true, removed)

/-- `TutoringQueueManager.leave_queue`. -/
def leaveQueue (s : Registry) (room u : String) : Registry × Bool :=
  match getQ s room with
  | none => (s, false)
  | some q =>
    match posOf q.entries u with
    | none => (maybeCleanup s room, false)
    | some _ =>
      let q2 :=
        { q with
          entries := removeFirst q.entries u,
          pending_user := if q.pending_user = some u then none else q.pending_user,
          pending_task := if q.pending_user = some u then none else q.pending_task,
          active_user := if q.active_user = some u then none else q.active_user,
          state := if q.active_user = some u then QueueState.free else q.state }
      let s2 := maybeCleanup (upd s room q2) room
      if q2.state = QueueState.free ∧ ¬ optTruthy q2.pending_user ∧ q2.entries ≠ [] then
        (notifyNext s2 room, true)
      else (s2, true)

/-- `TutoringQueueManager.handle_room_leave`. -/
def handleRoomLeave (s : Registry) (room u : String) : Registry × Bool :=
  match getQ s room with
  | none => (s, false)
  | some q =>
    if q.active_user ≠ some u then (s, false)
    else
      let entries2 :=
        match q.entries with
        | [] => ([] : List QueueEntry)
        | e :: t => if e.user_mxid = u then t else e :: t
      let q2 := { q with pending_task := none, pending_user := none,
                         entries := entries2, active_user := none,
                         state := QueueState.free }
      let s2 := maybeCleanup (upd s room q2) room
      if entries2 ≠ [] then (notifyNext s2 room, true) else (s2, true)

/-- `TutoringQueueManager._handle_timeout`: what the expiry of the scheduled
confirmation timeout does to the coordinator state. -/
def handleTimeout (s : Registry) (room u : String) : Registry :=
  match getQ s room with
  | none => s
  | some q =>
    if q.pending_user ≠ some u then s
    else
      let entries2 :=
        match q.entries with
        | [] => ([] : List QueueEntry)
        | e :: t => if e.user_mxid = u then t else e :: t
      let q2 := { q with entries := entries2, pending_user := none,
                         pending_task := none, active_user := none,
                         state := QueueState.free }
      let s2 := maybeCleanup (upd s room q2) room
      if entries2 ≠ [] then notifyNext s2 room else s2

structure SnapEntry where
  position : Nat
  user_mxid : String
  status : String
  requested_at : Nat
deriving DecidableEq, Repr

structure Snapshot where
  state : QueueState
  entries : List SnapEntry
deriving DecidableEq, Repr

/-- The `for idx, entry in enumerate(queue.entries)` loop of `get_snapshot`
(the `active` comparison is performed last and therefore wins). -/
def snapList (pending active : Option String) : Nat → List QueueEntry → List SnapEntry
  | _, [] => []
  | i, e :: t =>
    let status :=
      if active = some e.user_mxid then "active"
      else if pending = some e.user_mxid then "awaiting-confirmation"
      else "waiting"
    ⟨i + 1, e.user_mxid, status, e.requested_at⟩ :: snapList pending active (i + 1) t

/-- `TutoringQueueManager.get_snapshot`. -/
def getSnapshot (s : Registry) (room : String) : Snapshot :=
  match getQ s room with
  | none => ⟨QueueState.free, []⟩
  | some q => ⟨q.state, snapList q.pending_user q.active_user 0 q.entries⟩

/-- `TutoringQueueManager.is_active_user`. -/
def isActiveUser (s : Registry) (room u : String) : Bool :=
  match getQ s room with
  | none => false
  | some q => decide (q.active_user = some u)

/-- The completed coordinator operations (timeout expiry included). -/
inductive Op where
  | enq (room tm tl tlp u nt : String) (now : Nat)
  | confirm (room u : String)
  | release (room : String)
  | leave (room u : String)
  | roomLeave (room u : String)
  | timeout (room u : String)
deriving DecidableEq, Repr

def step (s : Registry) : Op → Registry
  | .enq room tm tl tlp u nt now => (enqueue s room tm tl tlp u nt now).1
  | .confirm room u => (confirmAccess s room u).1
  | .release room => (releaseCurrent s room).1
  | .leave room u => (leaveQueue s room u).1
  | .roomLeave room u => (handleRoomLeave s room u).1
  | .timeout room u => handleTimeout s room u

def steps (s : Registry) (ops : List Op) : Registry := ops.foldl step s

/-- A coordinator state reachable from the fresh manager by completed
operations. -/
def Reachable (s : Registry) : Prop := ∃ ops : List Op, steps emptyReg ops = s

def opRoom : Op → String
  | .enq room _ _ _ _ _ _ => room
  | .confirm room _ => room
  | .release room => room
  | .leave room _ => room
  | .roomLeave room _ => room
  | .timeout room _ => room

/-- The arguments of one `enqueue` call (minus the room). -/
structure EnqReq where
  teacher_mxid : String
  teacher_label : String
  teacher_localpart : String
  user_mxid : String
  notify_room_id : String
  requested_at : Nat
deriving DecidableEq, Repr

def toEntry (r : EnqReq) : QueueEntry :=
  ⟨r.user_mxid, r.notify_room_id, r.requested_at⟩

/-- A sequence of `enqueue` calls on the same room with no other operation in
between. -/
def runEnqueues (s : Registry) (room : String) : List EnqReq → Registry
  | [] => s
  | r :: rest =>
    runEnqueues
      ((enqueue s room r.teacher_mxid r.teacher_label r.teacher_localpart
          r.user_mxid r.notify_room_id r.requested_at).1)
      room rest

/-- The per-room invariant maintained by the coordinator. -/
def InvQ (q : RoomQueue) : Prop :=
  (q.state = QueueState.occupied → q.active_user.isSome ∧ q.pending_user = none) ∧
  (∀ p, q.pending_user = some p → q.entries.head?.map (·.user_mxid) = some p) ∧
  (∀ a, q.active_user = some a → q.entries.head?.map (·.user_mxid) = some a) ∧
  (q.active_user.isSome → q.state = QueueState.occupied) ∧
  q.entries ≠ []

def AllInv (s : Registry) : Prop := ∀ room q, getQ s room = some q → InvQ q

/-- A room whose slot is occupied by a confirmed user, with no pending offer. -/
def OccupiedBy (s : Registry) (room u : String) : Prop :=
  ∃ q, getQ s room = some q ∧ q.active_user = some u ∧
    q.state = QueueState.occupied ∧ q.pending_user = none

def activeOf (s : Registry) (room : String) : Option String :=
  (getQ s room).bind (·.active_user)

/- Concrete states and operation lists used as witnesses. -/

def wOps1 : List Op := [.enq "R" "t" "Prof" "prof" "alice" "nA" 0]

/-- One user enqueued: alice holds the pending offer. -/
def wReg1 : Registry := steps emptyReg wOps1

def wQ1 : RoomQueue :=
  ⟨"R", "t", "Prof", "prof", [⟨"alice", "nA", 0⟩], QueueState.free,
   some "alice", some "alice", none⟩

/-- The state right after alice confirms. -/
def wRegC1 : Registry := (confirmAccess wReg1 "R" "alice").1

def wMsgC1 : String := (confirmAccess wReg1 "R" "alice").2.2

def wOps2 : List Op :=
  [.enq "R" "t" "Prof" "prof" "A" "nA" 0, .enq "R" "t" "Prof" "prof" "B" "nB" 1]

/-- Two users enqueued: A holds the pending offer, B waits. -/
def wReg2 : Registry := steps emptyReg wOps2

def wQ2 : RoomQueue :=
  ⟨"R", "t", "Prof", "prof", [⟨"A", "nA", 0⟩, ⟨"B", "nB", 1⟩], QueueState.free,
   some "A", some "A", none⟩

def wOps3 : List Op := [.enq "R" "t" "Prof" "prof" "A" "nA" 0, .confirm "R" "A"]

/-- A enqueued and confirmed: the room is occupied by A. -/
def wReg3 : Registry := steps emptyReg wOps3

def wQ3 : RoomQueue :=
  ⟨"R", "t", "Prof", "prof", [⟨"A", "nA", 0⟩], QueueState.occupied,
   none, none, some "A"⟩

/-- A enqueued then released: the idle queue is garbage-collected. -/
def wOps4 : List Op := [.enq "R" "t" "Prof" "prof" "A" "nA" 0, .release "R"]

def wReqs : List EnqReq :=
  [⟨"t", "Prof", "prof", "A", "nA", 0⟩, ⟨"t", "Prof", "prof", "B", "nB", 1⟩]

/-! Basic registry lemmas. -/

theorem getQ_upd_self (s : Registry) (k : String) (q : RoomQueue) :
    getQ (upd s k q) k = some q := by simp [getQ, upd]

theorem getQ_upd_ne {r k : String} (h : r ≠ k) (s : Registry) (q : RoomQueue) :
    getQ (upd s k q) r = getQ s r := by simp [getQ, upd, h]

theorem getQ_del_self (s : Registry) (k : String) : getQ (del s k) k = none := by
  simp [getQ, del]

theorem getQ_del_ne {r k : String} (h : r ≠ k) (s : Registry) :
    getQ (del s k) r = getQ s r := by simp [getQ, del, h]

theorem maybeCleanup_cases (s : Registry) (room : String) :
    maybeCleanup s room = s ∨ maybeCleanup s room = del s room := by
  unfold maybeCleanup
  split
  · exact Or.inl rfl
  · split
    · exact Or.inr rfl
    · exact Or.inl rfl

theorem getQ_maybeCleanup_ne {r room : String} (h : r ≠ room) (s : Registry) :
    getQ (maybeCleanup s room) r = getQ s r := by
  rcases maybeCleanup_cases s room with hc | hc <;> rw [hc]
  exact getQ_del_ne h s

/-- `_notify_next` either leaves the registry unchanged or sets the pending
offer of the target room to the head of its queue, touching nothing else. -/
theorem getQ_notifyNext_self (s : Registry) (room : String) :
    getQ (notifyNext s room) room = getQ s room ∨
    ∃ q e, getQ s room = some q ∧ q.entries.head? = some e ∧
      getQ (notifyNext s room) room =
        some { q with pending_user := some e.user_mxid,
                      pending_task := some e.user_mxid } := by
  unfold notifyNext
  split
  · exact Or.inl rfl
  · rename_i q hq
    split
    · exact Or.inl rfl
    · split
      · exact Or.inl rfl
      · rename_i e t he
        split
        · exact Or.inl rfl
        · exact Or.inr ⟨q, e, hq, by rw [he]; rfl, getQ_upd_self s room _⟩

theorem getQ_notifyNext_ne {r room : String} (h : r ≠ room) (s : Registry) :
    getQ (notifyNext s room) r = getQ s r := by
  unfold notifyNext
  split
  · rfl
  · split
    · rfl
    · split
      · rfl
      · split
        · rfl
        · exact getQ_upd_ne h s _

/-- After `_notify_next` the target room still exists and every field other
than the pending offer and its task is unchanged. -/
theorem getQ_notifyNext_entries {s : Registry} {room : String} {q : RoomQueue}
    (h : getQ s room = some q) :
    ∃ q', getQ (notifyNext s room) room = some q' ∧ q'.entries = q.entries ∧
      q'.state = q.state ∧ q'.active_user = q.active_user ∧
      q'.teacher_mxid = q.teacher_mxid ∧ q'.teacher_label = q.teacher_label ∧
      q'.teacher_localpart = q.teacher_localpart := by
  rcases getQ_notifyNext_self s room with hc | ⟨q0, e, hq0, _, hc⟩
  · exact ⟨q, by rw [hc]; exact h, rfl, rfl, rfl, rfl, rfl, rfl⟩
  · rw [hq0] at h
    injection h with h
    subst h
    exact ⟨_, hc, rfl, rfl, rfl, rfl, rfl, rfl⟩

/-! List-level lemmas about the queue scans. -/

theorem posOf_eq_none {l : List QueueEntry} {u : String} :
    posOf l u = none ↔ ∀ e ∈ l, e.user_mxid ≠ u := by
  induction l with
  | nil => simp [posOf]
  | cons e t ih =>
    by_cases he : e.user_mxid = u
    · simp [posOf, he]
    · simp [posOf, he, ih]

theorem posOf_append_last {l : List QueueEntry} {u : String} (h : posOf l u = none)
    {e : QueueEntry} (he : e.user_mxid = u) :
    posOf (l ++ [e]) u = some (l.length + 1) := by
  induction l with
  | nil => simp [posOf, he]
  | cons a t ih =>
    have ha : a.user_mxid ≠ u := by
      intro hh
      simp [posOf, hh] at h
    have ht : posOf t u = none := by
      simp [posOf, ha] at h
      exact h
    simp [posOf, ha, ih ht]

theorem snapList_map_user (p a : Option String) (l : List QueueEntry) : ∀ i : Nat,
    (snapList p a i l).map (·.user_mxid) = l.map (·.user_mxid) := by
  induction l with
  | nil => intro i; rfl
  | cons e t ih => intro i; simp [snapList, ih]

theorem snapList_map_position (p a : Option String) (l : List QueueEntry) : ∀ i : Nat,
    (snapList p a i l).map (·.position) = List.range' (i + 1) l.length := by
  induction l with
  | nil => intro i; simp [snapList]
  | cons e t ih =>
    intro i
    rw [List.length_cons, List.range'_succ]
    simp [snapList, ih]

/-! Branch-level equation lemmas for the operations. -/

theorem enqueue_none_eq {s : Registry} {room : String} (tm tl tlp u nt : String)
    (now : Nat) (h : getQ s room = none) :
    enqueue s room tm tl tlp u nt now =
      (notifyNext
        (upd s room
          (RoomQueue.mk room tm tl tlp [⟨u, nt, now⟩] QueueState.free none none none))
        room, 1, true) := by
  unfold enqueue enqueueCore
  rw [h]
  rfl

theorem enqueue_some_eq {s : Registry} {room : String} (tm tl tlp u nt : String)
    (now : Nat) {q0 : RoomQueue} (h : getQ s room = some q0) :
    enqueue s room tm tl tlp u nt now =
      enqueueCore s room (refreshMeta q0 tm tl tlp) u nt now := by
  unfold enqueue
  rw [h]

theorem enqueueCore_found {s : Registry} {room : String} {q : RoomQueue}
    {u : String} {p : Nat} (nt : String) (now : Nat)
    (hp : posOf q.entries u = some p) :
    enqueueCore s room q u nt now = (upd s room q, p, false) := by
  unfold enqueueCore
  rw [hp]

theorem enqueueCore_append {s : Registry} {room : String} {q : RoomQueue}
    {u : String} (nt : String) (now : Nat) (hp : posOf q.entries u = none) :
    enqueueCore s room q u nt now =
      (if q.state = QueueState.free ∧ ¬ optTruthy q.pending_user ∧
          (q.entries ++ [(⟨u, nt, now⟩ : QueueEntry)]).length = 1 then
        (notifyNext (upd s room { q with entries := q.entries ++ [⟨u, nt, now⟩] }) room,
         (q.entries ++ [(⟨u, nt, now⟩ : QueueEntry)]).length, true)
      else
        (upd s room { q with entries := q.entries ++ [⟨u, nt, now⟩] },
         (q.entries ++ [(⟨u, nt, now⟩ : QueueEntry)]).length, true)) := by
  unfold enqueueCore
  rw [hp]

theorem confirmAccess_none {s : Registry} {room : String} (u : String)
    (h : getQ s room = none) :
    confirmAccess s room u = (s, false, confirmMsgFail) := by
  unfold confirmAccess
  rw [h]

theorem confirmAccess_some {s : Registry} {room : String} (u : String)
    {q : RoomQueue} (h : getQ s room = some q) :
    confirmAccess s room u =
      (if q.pending_user ≠ some u then (s, false, confirmMsgFail)
       else
        (upd s room
          { q with state := QueueState.occupied, active_user := some u,
                   pending_user := none, pending_task := none },
         true, confirmMsgOk)) := by
  unfold confirmAccess
  rw [h]

theorem releaseCurrent_none {s : Registry} {room : String} (h : getQ s room = none) :
    releaseCurrent s room = (s, false, some noQueueMsg) := by
  unfold releaseCurrent
  rw [h]

theorem releaseCurrent_some {s : Registry} {room : String} {q : RoomQueue}
    (h : getQ s room = some q) :
    releaseCurrent s room =
      (if q.entries.tail ≠ [] then
        (notifyNext
          (maybeCleanup
            (upd s room
              { q with entries := q.entries.tail, active_user := none,
                       pending_user := none, pending_task := none,
                       state := QueueState.free }) room) room,
         true, q.entries.head?.map (·.user_mxid))
      else
        (maybeCleanup
          (upd s room
            { q with entries := q.entries.tail, active_user := none,
                     pending_user := none, pending_task := none,
                     state := QueueState.free }) room,
         true, q.entries.head?.map (·.user_mxid))) := by
  unfold releaseCurrent
  rw [h]

theorem leaveQueue_none {s : Registry} {room : String} (u : String)
    (h : getQ s room = none) : leaveQueue s room u = (s, false) := by
  unfold leaveQueue
  rw [h]

theorem leaveQueue_notfound {s : Registry} {room : String} {u : String}
    {q : RoomQueue} (h : getQ s room = some q) (hp : posOf q.entries u = none) :
    leaveQueue s room u = (maybeCleanup s room, false) := by
  simp only [leaveQueue, h, hp]

theorem leaveQueue_found {s : Registry} {room : String} {u : String}
    {q : RoomQueue} {k : Nat} (h : getQ s room = some q)
    (hp : posOf q.entries u = some k) :
    leaveQueue s room u =
      (if (if q.active_user = some u then QueueState.free else q.state) = QueueState.free ∧
          ¬ optTruthy (if q.pending_user = some u then none else q.pending_user) ∧
          removeFirst q.entries u ≠ [] then
        (notifyNext
          (maybeCleanup
            (upd s room
              { q with
                entries := removeFirst q.entries u,
                pending_user := if q.pending_user = some u then none else q.pending_user,
                pending_task := if q.pending_user = some u then none else q.pending_task,
                active_user := if q.active_user = some u then none else q.active_user,
                state := if q.active_user = some u then QueueState.free else q.state })
            room) room, true)
      else
        (maybeCleanup
          (upd s room
            { q with
              entries := removeFirst q.entries u,
              pending_user := if q.pending_user = some u then none else q.pending_user,
              pending_task := if q.pending_user = some u then none else q.pending_task,
              active_user := if q.active_user = some u then none else q.active_user,
              state := if q.active_user = some u then QueueState.free else q.state })
          room, true)) := by
  simp only [leaveQueue, h, hp]

theorem handleRoomLeave_none {s : Registry} {room : String} (u : String)
    (h : getQ s room = none) : handleRoomLeave s room u = (s, false) := by
  unfold handleRoomLeave
  rw [h]

theorem handleRoomLeave_other {s : Registry} {room : String} {u : String}
    {q : RoomQueue} (h : getQ s room = some q) (ha : q.active_user ≠ some u) :
    handleRoomLeave s room u = (s, false) := by
  simp only [handleRoomLeave, h]
  rw [if_pos ha]

theorem handleRoomLeave_active {s : Registry} {room : String} {u : String}
    {q : RoomQueue} {e : QueueEntry} {t : List QueueEntry}
    (h : getQ s room = some q) (ha : q.active_user = some u)
    (he : q.entries = e :: t) (heu : e.user_mxid = u) :
    handleRoomLeave s room u =
      (if t ≠ [] then
        (notifyNext
          (maybeCleanup
            (upd s room
              { q with pending_task := none, pending_user := none, entries := t,
                       active_user := none, state := QueueState.free }) room) room, true)
      else
        (maybeCleanup
          (upd s room
            { q with pending_task := none, pending_user := none, entries := t,
                     active_user := none, state := QueueState.free }) room, true)) := by
  simp only [handleRoomLeave, h, he, heu, ite_true]
  rw [if_neg (not_ne_iff.mpr ha)]

theorem handleTimeout_skip {s : Registry} {room : String} {u : String}
    (h : ∀ q, getQ s room = some q → q.pending_user ≠ some u) :
    handleTimeout s room u = s := by
  unfold handleTimeout
  split
  · rfl
  · rename_i q hq
    rw [if_pos (h q hq)]

theorem handleTimeout_fire {s : Registry} {room : String} {u : String}
    {q : RoomQueue} {e : QueueEntry} {t : List QueueEntry}
    (h : getQ s room = some q) (hpu : q.pending_user = some u)
    (he : q.entries = e :: t) (heu : e.user_mxid = u) :
    handleTimeout s room u =
      (if t ≠ [] then
        notifyNext
          (maybeCleanup
            (upd s room
              { q with entries := t, pending_user := none, pending_task := none,
                       active_user := none, state := QueueState.free }) room) room
      else
        maybeCleanup
          (upd s room
            { q with entries := t, pending_user := none, pending_task := none,
                     active_user := none, state := QueueState.free }) room) := by
  simp only [handleTimeout, h, he, heu, ite_true]
  rw [if_neg (not_ne_iff.mpr hpu)]

/-! Preservation of the per-room invariant by every operation. -/

theorem allInv_empty : AllInv emptyReg := by
  intro room q h
  exact Option.noConfusion h

theorem allInv_upd {s : Registry} {room : String} {q : RoomQueue}
    (hs : AllInv s) (hq : InvQ q) : AllInv (upd s room q) := by
  intro r q' h
  by_cases hr : r = room
  · subst hr
    rw [getQ_upd_self] at h
    injection h with h
    subst h
    exact hq
  · rw [getQ_upd_ne hr] at h
    exact hs r q' h

theorem allInv_del {s : Registry} (hs : AllInv s) (room : String) :
    AllInv (del s room) := by
  intro r q' h
  by_cases hr : r = room
  · subst hr
    rw [getQ_del_self] at h
    exact Option.noConfusion h
  · rw [getQ_del_ne hr] at h
    exact hs r q' h

theorem allInv_maybeCleanup {s : Registry} (hs : AllInv s) (room : String) :
    AllInv (maybeCleanup s room) := by
  rcases maybeCleanup_cases s room with hc | hc <;> rw [hc]
  · exact hs
  · exact allInv_del hs room

/-- The `upd`-then-cleanup pattern shared by the mutating operations: the
written queue either satisfies the invariant or is idle (and then collected). -/
theorem allInv_cleanup_upd {s : Registry} {room : String} {q : RoomQueue}
    (hs : AllInv s) (hq : IdleQ q ∨ InvQ q) :
    AllInv (maybeCleanup (upd s room q) room) := by
  unfold maybeCleanup
  rw [getQ_upd_self]
  show AllInv (if IdleQ q then del (upd s room q) room else upd s room q)
  by_cases hc : IdleQ q
  · rw [if_pos hc]
    intro r q' h
    by_cases hr : r = room
    · subst hr
      rw [getQ_del_self] at h
      exact Option.noConfusion h
    · rw [getQ_del_ne hr, getQ_upd_ne hr] at h
      exact hs r q' h
  · rw [if_neg hc]
    exact allInv_upd hs (hq.resolve_left hc)

theorem allInv_notifyNext {s : Registry} (hs : AllInv s) (room : String) :
    AllInv (notifyNext s room) := by
  unfold notifyNext
  split
  · exact hs
  · rename_i q hq
    split
    · exact hs
    · rename_i hst
      rw [not_ne_iff] at hst
      split
      · exact hs
      · rename_i e t he
        split
        · exact hs
        · obtain ⟨h1, h2, h3, h4, h5⟩ := hs room q hq
          refine allInv_upd hs ⟨?_, ?_, ?_, ?_, ?_⟩
          · intro hocc
            have hocc' : q.state = QueueState.occupied := hocc
            rw [hst] at hocc'
            exact QueueState.noConfusion hocc'
          · intro p hp
            have hp' : some e.user_mxid = some p := hp
            injection hp' with hp'
            subst hp'
            show q.entries.head?.map (·.user_mxid) = some e.user_mxid
            rw [he]
            rfl
          · exact h3
          · exact h4
          · exact h5


theorem head_of_append_left {l : List QueueEntry} (h : l ≠ []) (l2 : List QueueEntry) :
    (l ++ l2).head? = l.head? := by
  cases l with
  | nil => exact absurd rfl h
  | cons e t => rfl

theorem invQ_refreshMeta {q : RoomQueue} (h : InvQ q) (tm tl tlp : String) :
    InvQ (refreshMeta q tm tl tlp) := h

theorem allInv_enqueueCore {s : Registry} {room : String} {q : RoomQueue}
    (hs : AllInv s) (hq : InvQ q) (u nt : String) (now : Nat) :
    AllInv ((enqueueCore s room q u nt now).1) := by
  cases hp : posOf q.entries u with
  | some p =>
    rw [enqueueCore_found nt now hp]
    exact allInv_upd hs hq
  | none =>
    rw [enqueueCore_append nt now hp]
    obtain ⟨h1, h2, h3, h4, h5⟩ := hq
    have hq2 : InvQ { q with entries := q.entries ++ [(⟨u, nt, now⟩ : QueueEntry)] } := by
      refine ⟨h1, ?_, ?_, h4, ?_⟩
      · intro p hp2
        show (q.entries ++ [(⟨u, nt, now⟩ : QueueEntry)]).head?.map (·.user_mxid) = some p
        rw [head_of_append_left h5]
        exact h2 p hp2
      · intro a ha2
        show (q.entries ++ [(⟨u, nt, now⟩ : QueueEntry)]).head?.map (·.user_mxid) = some a
        rw [head_of_append_left h5]
        exact h3 a ha2
      · show q.entries ++ [(⟨u, nt, now⟩ : QueueEntry)] ≠ []
        simp
    by_cases hc : q.state = QueueState.free ∧ ¬ optTruthy q.pending_user ∧
        (q.entries ++ [(⟨u, nt, now⟩ : QueueEntry)]).length = 1
    · rw [if_pos hc]
      exact allInv_notifyNext (allInv_upd hs hq2) room
    · rw [if_neg hc]
      exact allInv_upd hs hq2

theorem allInv_enqueue {s : Registry} (hs : AllInv s)
    (room tm tl tlp u nt : String) (now : Nat) :
    AllInv ((enqueue s room tm tl tlp u nt now).1) := by
  cases hq : getQ s room with
  | none =>
    rw [enqueue_none_eq tm tl tlp u nt now hq]
    refine allInv_notifyNext (allInv_upd hs ⟨?_, ?_, ?_, ?_, ?_⟩) room
    · intro h'
      exact QueueState.noConfusion h'
    · intro p hp'
      exact Option.noConfusion hp'
    · intro a ha'
      exact Option.noConfusion ha'
    · intro h'
      exact Bool.noConfusion h'
    · exact List.cons_ne_nil _ _
  | some q0 =>
    rw [enqueue_some_eq tm tl tlp u nt now hq]
    exact allInv_enqueueCore hs (invQ_refreshMeta (hs room q0 hq) tm tl tlp) u nt now

theorem allInv_confirm {s : Registry} (hs : AllInv s) (room u : String) :
    AllInv ((confirmAccess s room u).1) := by
  cases hq : getQ s room with
  | none =>
    rw [confirmAccess_none u hq]
    exact hs
  | some q =>
    rw [confirmAccess_some u hq]
    by_cases hp : q.pending_user ≠ some u
    · rw [if_pos hp]
      exact hs
    · rw [if_neg hp]
      rw [not_ne_iff] at hp
      obtain ⟨h1, h2, h3, h4, h5⟩ := hs room q hq
      refine allInv_upd hs ⟨?_, ?_, ?_, ?_, ?_⟩
      · intro _
        exact ⟨rfl, rfl⟩
      · intro p hp'
        exact Option.noConfusion hp'
      · intro a ha'
        have ha2 : some u = some a := ha'
        injection ha2 with ha2
        subst ha2
        exact h2 u hp
      · intro _
        rfl
      · exact h5

theorem allInv_release {s : Registry} (hs : AllInv s) (room : String) :
    AllInv ((releaseCurrent s room).1) := by
  cases hq : getQ s room with
  | none =>
    rw [releaseCurrent_none hq]
    exact hs
  | some q =>
    rw [releaseCurrent_some hq]
    by_cases hc : q.entries.tail ≠ []
    · rw [if_pos hc]
      refine allInv_notifyNext (allInv_cleanup_upd hs (Or.inr ⟨?_, ?_, ?_, ?_, ?_⟩)) room
      · intro h'
        exact QueueState.noConfusion h'
      · intro p hp'
        exact Option.noConfusion hp'
      · intro a ha'
        exact Option.noConfusion ha'
      · intro h'
        exact Bool.noConfusion h'
      · exact hc
    · rw [if_neg hc]
      rw [not_ne_iff] at hc
      exact allInv_cleanup_upd hs (Or.inl ⟨hc, fun h => h rfl, fun h => h rfl⟩)


/-- The queue written back by a successful `leave_queue` is idle or satisfies
the invariant again. -/
theorem leave_update_inv {q : RoomQueue} (u : String) (hq : InvQ q) :
    IdleQ { q with
            entries := removeFirst q.entries u,
            pending_user := if q.pending_user = some u then none else q.pending_user,
            pending_task := if q.pending_user = some u then none else q.pending_task,
            active_user := if q.active_user = some u then none else q.active_user,
            state := if q.active_user = some u then QueueState.free else q.state } ∨
    InvQ { q with
           entries := removeFirst q.entries u,
           pending_user := if q.pending_user = some u then none else q.pending_user,
           pending_task := if q.pending_user = some u then none else q.pending_task,
           active_user := if q.active_user = some u then none else q.active_user,
           state := if q.active_user = some u then QueueState.free else q.state } := by
  obtain ⟨h1, h2, h3, h4, h5⟩ := hq
  by_cases hpu : q.pending_user = some u
  · have hhead := h2 u hpu
    obtain ⟨e, t, hl⟩ : ∃ e t, q.entries = e :: t := by
      cases hx : q.entries with
      | nil =>
        rw [hx] at hhead
        exact Option.noConfusion hhead
      | cons e t => exact ⟨e, t, rfl⟩
    have heu : e.user_mxid = u := by
      rw [hl] at hhead
      simpa using hhead
    have hact : q.active_user = none := by
      cases ha : q.active_user with
      | none => rfl
      | some a =>
        obtain ⟨-, hpn⟩ := h1 (h4 (by rw [ha]; rfl))
        rw [hpu] at hpn
        exact Option.noConfusion hpn
    have hau : q.active_user ≠ some u := by
      rw [hact]
      exact fun hh => Option.noConfusion hh
    have hst : q.state = QueueState.free := by
      cases hs' : q.state with
      | free => rfl
      | occupied =>
        obtain ⟨-, hpn⟩ := h1 hs'
        rw [hpu] at hpn
        exact Option.noConfusion hpn
    have hrf : removeFirst q.entries u = t := by
      rw [hl]
      simp [removeFirst, heu]
    cases t with
    | nil =>
      left
      refine ⟨?_, ?_, ?_⟩
      · show removeFirst q.entries u = []
        rw [hrf]
      · show ¬ optTruthy (if q.pending_user = some u then none else q.pending_user)
        rw [if_pos hpu]
        exact fun h => h rfl
      · show ¬ optTruthy (if q.active_user = some u then none else q.active_user)
        rw [if_neg hau, hact]
        exact fun h => h rfl
    | cons e2 t2 =>
      right
      refine ⟨?_, ?_, ?_, ?_, ?_⟩
      · intro hocc
        have hocc' : (if q.active_user = some u then QueueState.free else q.state) =
            QueueState.occupied := hocc
        rw [if_neg hau, hst] at hocc'
        exact QueueState.noConfusion hocc'
      · intro p hp'
        have hp'' : (if q.pending_user = some u then none else q.pending_user)
            = some p := hp'
        rw [if_pos hpu] at hp''
        exact Option.noConfusion hp''
      · intro a ha'
        have ha'' : (if q.active_user = some u then none else q.active_user)
            = some a := ha'
        rw [if_neg hau, hact] at ha''
        exact Option.noConfusion ha''
      · intro hsome
        have hsome' : (if q.active_user = some u then none else q.active_user).isSome
            = true := hsome
        rw [if_neg hau, hact] at hsome'
        exact Bool.noConfusion hsome'
      · show removeFirst q.entries u ≠ []
        rw [hrf]
        exact List.cons_ne_nil _ _
  · by_cases hau : q.active_user = some u
    · have hhead := h3 u hau
      obtain ⟨e, t, hl⟩ : ∃ e t, q.entries = e :: t := by
        cases hx : q.entries with
        | nil =>
          rw [hx] at hhead
          exact Option.noConfusion hhead
        | cons e t => exact ⟨e, t, rfl⟩
      have heu : e.user_mxid = u := by
        rw [hl] at hhead
        simpa using hhead
      have hpn : q.pending_user = none := (h1 (h4 (by rw [hau]; rfl))).2
      have hrf : removeFirst q.entries u = t := by
        rw [hl]
        simp [removeFirst, heu]
      cases t with
      | nil =>
        left
        refine ⟨?_, ?_, ?_⟩
        · show removeFirst q.entries u = []
          rw [hrf]
        · show ¬ optTruthy (if q.pending_user = some u then none else q.pending_user)
          rw [if_neg hpu, hpn]
          exact fun h => h rfl
        · show ¬ optTruthy (if q.active_user = some u then none else q.active_user)
          rw [if_pos hau]
          exact fun h => h rfl
      | cons e2 t2 =>
        right
        refine ⟨?_, ?_, ?_, ?_, ?_⟩
        · intro hocc
          have hocc' : (if q.active_user = some u then QueueState.free else q.state) =
              QueueState.occupied := hocc
          rw [if_pos hau] at hocc'
          exact QueueState.noConfusion hocc'
        · intro p hp'
          have hp'' : (if q.pending_user = some u then none else q.pending_user)
              = some p := hp'
          rw [if_neg hpu, hpn] at hp''
          exact Option.noConfusion hp''
        · intro a ha'
          have ha'' : (if q.active_user = some u then none else q.active_user)
              = some a := ha'
          rw [if_pos hau] at ha''
          exact Option.noConfusion ha''
        · intro hsome
          have hsome' : (if q.active_user = some u then none else q.active_user).isSome
              = true := hsome
          rw [if_pos hau] at hsome'
          exact Bool.noConfusion hsome'
        · show removeFirst q.entries u ≠ []
          rw [hrf]
          exact List.cons_ne_nil _ _
    · have hkeep : ∀ e tl, q.entries = e :: tl → e.user_mxid ≠ u →
          removeFirst q.entries u = e :: removeFirst tl u := by
        intro e tl hl hne
        rw [hl]
        simp [removeFirst, hne]
      by_cases hps : ∃ p, q.pending_user = some p
      · obtain ⟨p, hpp⟩ := hps
        have hhead := h2 p hpp
        obtain ⟨e, t, hl⟩ : ∃ e t, q.entries = e :: t := by
          cases hx : q.entries with
          | nil =>
            rw [hx] at hhead
            exact Option.noConfusion hhead
          | cons e t => exact ⟨e, t, rfl⟩
        have hep : e.user_mxid = p := by
          rw [hl] at hhead
          simpa using hhead
        have hne : e.user_mxid ≠ u := by
          intro hh
          rw [hep] at hh
          exact hpu (by rw [hpp, hh])
        have hrf := hkeep e t hl hne
        right
        refine ⟨?_, ?_, ?_, ?_, ?_⟩
        · intro hocc
          have hocc' : (if q.active_user = some u then QueueState.free else q.state) =
              QueueState.occupied := hocc
          rw [if_neg hau] at hocc'
          obtain ⟨hsome, hpn2⟩ := h1 hocc'
          constructor
          · show (if q.active_user = some u then none else q.active_user).isSome = true
            rw [if_neg hau]
            exact hsome
          · show (if q.pending_user = some u then none else q.pending_user) = none
            rw [if_neg hpu]
            exact hpn2
        · intro p' hp'
          have hp'' : (if q.pending_user = some u then none else q.pending_user)
              = some p' := hp'
          rw [if_neg hpu] at hp''
          have hpe : p' = p := by
            have hx := hpp.symm.trans hp''
            injection hx with hx
            exact hx.symm
          show (removeFirst q.entries u).head?.map (·.user_mxid) = some p'
          rw [hrf]
          simp [hep, hpe]
        · intro a ha'
          have ha'' : (if q.active_user = some u then none else q.active_user)
              = some a := ha'
          rw [if_neg hau] at ha''
          have hhead3 := h3 a ha''
          rw [hl] at hhead3
          have hea : e.user_mxid = a := by simpa using hhead3
          show (removeFirst q.entries u).head?.map (·.user_mxid) = some a
          rw [hrf]
          simp [hea]
        · intro hsome
          have hsome' : (if q.active_user = some u then none else q.active_user).isSome
              = true := hsome
          rw [if_neg hau] at hsome'
          show (if q.active_user = some u then QueueState.free else q.state) =
              QueueState.occupied
          rw [if_neg hau]
          exact h4 hsome'
        · show removeFirst q.entries u ≠ []
          rw [hrf]
          exact List.cons_ne_nil _ _
      · have hpn : q.pending_user = none := by
          cases hq' : q.pending_user with
          | none => rfl
          | some p => exact absurd ⟨p, hq'⟩ hps
        by_cases has : ∃ a, q.active_user = some a
        · obtain ⟨a, haa⟩ := has
          have hhead := h3 a haa
          obtain ⟨e, t, hl⟩ : ∃ e t, q.entries = e :: t := by
            cases hx : q.entries with
            | nil =>
              rw [hx] at hhead
              exact Option.noConfusion hhead
            | cons e t => exact ⟨e, t, rfl⟩
          have hea : e.user_mxid = a := by
            rw [hl] at hhead
            simpa using hhead
          have hne : e.user_mxid ≠ u := by
            intro hh
            rw [hea] at hh
            exact hau (by rw [haa, hh])
          have hrf := hkeep e t hl hne
          right
          refine ⟨?_, ?_, ?_, ?_, ?_⟩
          · intro hocc
            have hocc' : (if q.active_user = some u then QueueState.free else q.state) =
                QueueState.occupied := hocc
            rw [if_neg hau] at hocc'
            obtain ⟨hsome, hpn2⟩ := h1 hocc'
            constructor
            · show (if q.active_user = some u then none else q.active_user).isSome = true
              rw [if_neg hau]
              exact hsome
            · show (if q.pending_user = some u then none else q.pending_user) = none
              rw [if_neg hpu]
              exact hpn2
          · intro p' hp'
            have hp'' : (if q.pending_user = some u then none else q.pending_user)
                = some p' := hp'
            rw [if_neg hpu, hpn] at hp''
            exact Option.noConfusion hp''
          · intro a' ha'
            have ha'' : (if q.active_user = some u then none else q.active_user)
                = some a' := ha'
            rw [if_neg hau] at ha''
            have hhead3 := h3 a' ha''
            rw [hl] at hhead3
            have hea' : e.user_mxid = a' := by simpa using hhead3
            show (removeFirst q.entries u).head?.map (·.user_mxid) = some a'
            rw [hrf]
            simp [hea']
          · intro hsome
            have hsome' : (if q.active_user = some u then none
                else q.active_user).isSome = true := hsome
            rw [if_neg hau] at hsome'
            show (if q.active_user = some u then QueueState.free else q.state) =
                QueueState.occupied
            rw [if_neg hau]
            exact h4 hsome'
          · show removeFirst q.entries u ≠ []
            rw [hrf]
            exact List.cons_ne_nil _ _
        · have han : q.active_user = none := by
            cases hq' : q.active_user with
            | none => rfl
            | some a => exact absurd ⟨a, hq'⟩ has
          cases hrm : removeFirst q.entries u with
          | nil =>
            left
            refine ⟨?_, ?_, ?_⟩
            · rfl
            · show ¬ optTruthy (if q.pending_user = some u then none else q.pending_user)
              rw [if_neg hpu, hpn]
              exact fun h => h rfl
            · show ¬ optTruthy (if q.active_user = some u then none else q.active_user)
              rw [if_neg hau, han]
              exact fun h => h rfl
          | cons e2 t2 =>
            right
            refine ⟨?_, ?_, ?_, ?_, ?_⟩
            · intro hocc
              have hocc' : (if q.active_user = some u then QueueState.free else q.state) =
                  QueueState.occupied := hocc
              rw [if_neg hau] at hocc'
              obtain ⟨hsome, -⟩ := h1 hocc'
              rw [han] at hsome
              exact Bool.noConfusion hsome
            · intro p' hp'
              have hp'' : (if q.pending_user = some u then none else q.pending_user)
                  = some p' := hp'
              rw [if_neg hpu, hpn] at hp''
              exact Option.noConfusion hp''
            · intro a' ha'
              have ha'' : (if q.active_user = some u then none else q.active_user)
                  = some a' := ha'
              rw [if_neg hau, han] at ha''
              exact Option.noConfusion ha''
            · intro hsome
              have hsome' : (if q.active_user = some u then none
                  else q.active_user).isSome = true := hsome
              rw [if_neg hau, han] at hsome'
              exact Bool.noConfusion hsome'
            · exact List.cons_ne_nil _ _

theorem allInv_leave {s : Registry} (hs : AllInv s) (room u : String) :
    AllInv ((leaveQueue s room u).1) := by
  cases hq : getQ s room with
  | none =>
    rw [leaveQueue_none u hq]
    exact hs
  | some q =>
    cases hp : posOf q.entries u with
    | none =>
      rw [leaveQueue_notfound hq hp]
      exact allInv_maybeCleanup hs room
    | some k =>
      rw [leaveQueue_found hq hp]
      have key := leave_update_inv u (hs room q hq)
      by_cases hc : (if q.active_user = some u then QueueState.free else q.state) =
          QueueState.free ∧
          ¬ optTruthy (if q.pending_user = some u then none else q.pending_user) ∧
          removeFirst q.entries u ≠ []
      · rw [if_pos hc]
        exact allInv_notifyNext (allInv_cleanup_upd hs key) room
      · rw [if_neg hc]
        exact allInv_cleanup_upd hs key

theorem allInv_roomLeave {s : Registry} (hs : AllInv s) (room u : String) :
    AllInv ((handleRoomLeave s room u).1) := by
  cases hq : getQ s room with
  | none =>
    rw [handleRoomLeave_none u hq]
    exact hs
  | some q =>
    by_cases ha : q.active_user ≠ some u
    · rw [handleRoomLeave_other hq ha]
      exact hs
    · rw [not_ne_iff] at ha
      obtain ⟨h1, h2, h3, h4, h5⟩ := hs room q hq
      have hhead := h3 u ha
      cases hl : q.entries with
      | nil =>
        rw [hl] at hhead
        exact Option.noConfusion hhead
      | cons e t =>
        rw [hl] at hhead
        have heu : e.user_mxid = u := by simpa using hhead
        rw [handleRoomLeave_active hq ha hl heu]
        by_cases hc : t ≠ []
        · rw [if_pos hc]
          refine allInv_notifyNext (allInv_cleanup_upd hs
            (Or.inr ⟨?_, ?_, ?_, ?_, ?_⟩)) room
          · intro h'
            exact QueueState.noConfusion h'
          · intro p hp'
            exact Option.noConfusion hp'
          · intro a ha'
            exact Option.noConfusion ha'
          · intro h'
            exact Bool.noConfusion h'
          · exact hc
        · rw [if_neg hc]
          rw [not_ne_iff] at hc
          exact allInv_cleanup_upd hs (Or.inl ⟨hc, fun h => h rfl, fun h => h rfl⟩)

theorem allInv_timeout {s : Registry} (hs : AllInv s) (room u : String) :
    AllInv (handleTimeout s room u) := by
  by_cases hp : ∀ q, getQ s room = some q → q.pending_user ≠ some u
  · rw [handleTimeout_skip hp]
    exact hs
  · push_neg at hp
    obtain ⟨q, hq, hpu⟩ := hp
    obtain ⟨h1, h2, h3, h4, h5⟩ := hs room q hq
    have hhead := h2 u hpu
    cases hl : q.entries with
    | nil =>
      rw [hl] at hhead
      exact Option.noConfusion hhead
    | cons e t =>
      rw [hl] at hhead
      have heu : e.user_mxid = u := by simpa using hhead
      rw [handleTimeout_fire hq hpu hl heu]
      by_cases hc : t ≠ []
      · rw [if_pos hc]
        refine allInv_notifyNext (allInv_cleanup_upd hs
          (Or.inr ⟨?_, ?_, ?_, ?_, ?_⟩)) room
        · intro h'
          exact QueueState.noConfusion h'
        · intro p hp'
          exact Option.noConfusion hp'
        · intro a ha'
          exact Option.noConfusion ha'
        · intro h'
          exact Bool.noConfusion h'
        · exact hc
      · rw [if_neg hc]
        rw [not_ne_iff] at hc
        exact allInv_cleanup_upd hs (Or.inl ⟨hc, fun h => h rfl, fun h => h rfl⟩)

theorem allInv_step {s : Registry} (hs : AllInv s) (op : Op) : AllInv (step s op) := by
  cases op with
  | enq room tm tl tlp u nt now => exact allInv_enqueue hs room tm tl tlp u nt now
  | confirm room u => exact allInv_confirm hs room u
  | release room => exact allInv_release hs room
  | leave room u => exact allInv_leave hs room u
  | roomLeave room u => exact allInv_roomLeave hs room u
  | timeout room u => exact allInv_timeout hs room u

theorem allInv_steps (ops : List Op) : ∀ s : Registry, AllInv s → AllInv (steps s ops) := by
  induction ops with
  | nil => intro s hs; exact hs
  | cons o rest ih => intro s hs; exact ih (step s o) (allInv_step hs o)

theorem allInv_reachable {s : Registry} (h : Reachable s) : AllInv s := by
  obtain ⟨ops, hh⟩ := h
  rw [← hh]
  exact allInv_steps ops emptyReg allInv_empty


/-! Occupancy facts used for the confirm-exclusivity claim. -/

theorem activeOf_some_mem {s : Registry} {room u : String}
    (h : activeOf s room = some u) :
    ∃ q, getQ s room = some q ∧ q.active_user = some u := by
  unfold activeOf at h
  cases hq : getQ s room with
  | none =>
    rw [hq] at h
    exact Option.noConfusion h
  | some q =>
    rw [hq] at h
    exact ⟨q, rfl, h⟩

/-- In an invariant-respecting state, a room actively held by `u` is occupied
with no pending offer. -/
theorem occupied_of_active {s : Registry} (hs : AllInv s) {room u : String}
    (hact : activeOf s room = some u) : OccupiedBy s room u := by
  obtain ⟨q, hq, ha⟩ := activeOf_some_mem hact
  obtain ⟨h1, -, -, h4, -⟩ := hs room q hq
  have hocc := h4 (by rw [ha]; rfl)
  exact ⟨q, hq, ha, hocc, (h1 hocc).2⟩

/-- A successful `confirm_access` leaves the room occupied by the confirmed
user with the pending offer cleared. -/
theorem confirm_post {s s1 : Registry} {room u m : String}
    (hc : confirmAccess s room u = (s1, true, m)) : OccupiedBy s1 room u := by
  cases hq : getQ s room with
  | none =>
    rw [confirmAccess_none u hq] at hc
    exact Bool.noConfusion (congrArg (fun x => x.2.1) hc)
  | some q =>
    rw [confirmAccess_some u hq] at hc
    by_cases hp : q.pending_user ≠ some u
    · rw [if_pos hp] at hc
      exact Bool.noConfusion (congrArg (fun x => x.2.1) hc)
    · rw [if_neg hp] at hc
      have hs1 : upd s room
          { q with state := QueueState.occupied, active_user := some u,
                   pending_user := none, pending_task := none } = s1 :=
        congrArg Prod.fst hc
      rw [← hs1]
      exact ⟨_, getQ_upd_self s room _, rfl, rfl, rfl⟩

/-- While a room is occupied with no pending offer, every `confirm_access`
fails with the fixed human-readable message and changes nothing. -/
theorem occ_confirm_fails {s : Registry} {room u : String}
    (h : OccupiedBy s room u) (v : String) :
    confirmAccess s room v = (s, false, confirmMsgFail) := by
  obtain ⟨q, hq, -, -, hqp⟩ := h
  rw [confirmAccess_some v hq,
    if_pos (show q.pending_user ≠ some v by
      rw [hqp]; exact fun hh => Option.noConfusion hh)]


/-! Claim theorems. -/

/-- Claim C1: after a successful `confirm_access(room, u)` the room is
occupied by `u` with `pending_user` cleared, and as long as subsequent
completed operations have not cleared this occupancy (`u` is still the
active user), every `confirm_access(room, v)` — for `v = u` or any other
user — returns `ok = False` with the fixed human-readable reason and leaves
the state unchanged: confirmation is exactly-once. -/
theorem confirm_exactly_once (s s1 : Registry) (room u m : String)
    (hre : Reachable s) (hc : confirmAccess s room u = (s1, true, m))
    (ops : List Op) (hact : activeOf (steps s1 ops) room = some u) :
    OccupiedBy s1 room u ∧
    ∀ v, confirmAccess (steps s1 ops) room v =
      (steps s1 ops, false, confirmMsgFail) := by
  refine ⟨confirm_post hc, ?_⟩
  have hs1 : AllInv s1 := by
    have h0 := allInv_confirm (allInv_reachable hre) room u
    rw [congrArg Prod.fst hc] at h0
    exact h0
  exact occ_confirm_fails
    (occupied_of_active (allInv_steps ops s1 hs1) hact)

theorem confirm_exactly_once_witness :
    confirmAccess wRegC1 "R" "bob" = (wRegC1, false, confirmMsgFail) :=
  (confirm_exactly_once wReg1 wRegC1 "R" "alice" wMsgC1 ⟨wOps1, rfl⟩ rfl []
    rfl).2 "bob"

/-- Claim C2: in every state reachable by completed coordinator operations,
every registered room queue satisfies: `state = OCCUPIED` implies
`active_user` is set and `pending_user` is `None`; and a set `pending_user`
always equals the `user_mxid` of the head of `entries` — the offer is only
ever extended to the head of the queue. -/
theorem occupied_pending_invariant (ops : List Op) (room : String)
    (q : RoomQueue) (h : getQ (steps emptyReg ops) room = some q) :
    (q.state = QueueState.occupied → q.active_user.isSome ∧ q.pending_user = none) ∧
    (∀ p, q.pending_user = some p → q.entries.head?.map (·.user_mxid) = some p) := by
  obtain ⟨h1, h2, -, -, -⟩ := allInv_steps ops emptyReg allInv_empty room q h
  exact ⟨h1, h2⟩

theorem occupied_pending_invariant_witness :
    getQ (steps emptyReg wOps1) "R" = some wQ1 ∧
    wQ1.entries.head?.map (·.user_mxid) = some "alice" :=
  ⟨rfl, (occupied_pending_invariant wOps1 "R" wQ1 rfl).2 "alice" rfl⟩

/-- Claim C10: in every reachable state, a set `active_user` (the confirmed
occupant) is the user of the head entry of the non-empty `entries` list —
which is why `release_current` can pop the head unconditionally and return
the vacating occupant. -/
theorem active_at_head_invariant (ops : List Op) (room : String)
    (q : RoomQueue) (h : getQ (steps emptyReg ops) room = some q) :
    ∀ a, q.active_user = some a →
      q.entries ≠ [] ∧ q.entries.head?.map (·.user_mxid) = some a := by
  obtain ⟨-, -, h3, -, h5⟩ := allInv_steps ops emptyReg allInv_empty room q h
  exact fun a ha => ⟨h5, h3 a ha⟩

theorem active_at_head_invariant_witness :
    getQ (steps emptyReg wOps3) "R" = some wQ3 ∧
    wQ3.entries.head?.map (·.user_mxid) = some "A" :=
  ⟨rfl, (active_at_head_invariant wOps3 "R" wQ3 rfl "A" rfl).2⟩

/-- Claim C8: after every completed operation no fully idle room queue stays
registered — a registered queue has non-empty entries (hence an entry, a
pending user or an active user) — and an unregistered room's snapshot is the
default `{state: FREE, entries: []}` shape, indistinguishable from a room
that was never requested. -/
theorem idle_queue_collected (ops : List Op) (room : String) :
    (∀ q, getQ (steps emptyReg ops) room = some q →
      q.entries ≠ [] ∨ q.pending_user.isSome ∨ q.active_user.isSome) ∧
    (getQ (steps emptyReg ops) room = none →
      getSnapshot (steps emptyReg ops) room = ⟨QueueState.free, []⟩) := by
  constructor
  · intro q h
    exact Or.inl (allInv_steps ops emptyReg allInv_empty room q h).2.2.2.2
  · intro h
    unfold getSnapshot
    rw [h]

theorem idle_queue_collected_witness :
    getSnapshot (steps emptyReg wOps4) "R" = ⟨QueueState.free, []⟩ :=
  (idle_queue_collected wOps4 "R").2 rfl


/-! Helpers describing cleanup and notify on a freshly written queue. -/

theorem maybeCleanup_upd_idle {s : Registry} {room : String} {q : RoomQueue}
    (h : IdleQ q) : maybeCleanup (upd s room q) room = del (upd s room q) room := by
  unfold maybeCleanup
  rw [getQ_upd_self]
  show (if IdleQ q then del (upd s room q) room else upd s room q) = _
  rw [if_pos h]

theorem maybeCleanup_upd_live {s : Registry} {room : String} {q : RoomQueue}
    (h : ¬ IdleQ q) : maybeCleanup (upd s room q) room = upd s room q := by
  unfold maybeCleanup
  rw [getQ_upd_self]
  show (if IdleQ q then del (upd s room q) room else upd s room q) = _
  rw [if_neg h]

/-- `_notify_next` on a free room with a head entry that is neither pending
nor active: the head becomes the pending user. -/
theorem notifyNext_fire {s : Registry} {room : String} {q : RoomQueue}
    {e : QueueEntry} {t : List QueueEntry}
    (hq : getQ s room = some q) (hst : q.state = QueueState.free)
    (hl : q.entries = e :: t)
    (hp : q.pending_user ≠ some e.user_mxid)
    (ha : q.active_user ≠ some e.user_mxid) :
    notifyNext s room =
      upd s room { q with pending_user := some e.user_mxid,
                          pending_task := some e.user_mxid } := by
  simp only [notifyNext, hq, hst, hl]
  rw [if_neg (fun hh => hh rfl)]
  rw [if_neg (by rintro (hh | hh); exacts [hp hh, ha hh])]

/-- Claim C4: when a pending-offer timeout expires and the offered user is
still the pending user, that user's entry is popped from the head, the offer
is cleared, the state set to FREE, and — if entries remain — the new head
becomes the pending (awaiting-confirmation) user (the emptied queue is
collected, its snapshot the default FREE shape).  If the pending user has
changed (e.g. the user confirmed first), the expiry handler leaves the
coordinator state entirely unmutated.  Concretely, with A then B enqueued
and A never confirming, after expiry the snapshot shows A absent and B
awaiting-confirmation. -/
theorem timeout_expiry (s : Registry) (room u : String) :
    (∀ q, Reachable s → getQ s room = some q → q.pending_user = some u →
      ∃ e t, q.entries = e :: t ∧ e.user_mxid = u ∧
        (t = [] → getQ (handleTimeout s room u) room = none ∧
          getSnapshot (handleTimeout s room u) room = ⟨QueueState.free, []⟩) ∧
        (∀ e2 t2, t = e2 :: t2 →
          ∃ q2, getQ (handleTimeout s room u) room = some q2 ∧
            q2.entries = t ∧ q2.pending_user = some e2.user_mxid ∧
            q2.state = QueueState.free ∧ q2.active_user = none)) ∧
    ((∀ q, getQ s room = some q → q.pending_user ≠ some u) →
      handleTimeout s room u = s) ∧
    getSnapshot (handleTimeout wReg2 "R" "A") "R" =
      ⟨QueueState.free, [⟨1, "B", "awaiting-confirmation", 1⟩]⟩ := by
  refine ⟨?_, handleTimeout_skip, by decide⟩
  intro q hre hq hpu
  obtain ⟨h1, h2, h3, h4, h5⟩ := allInv_reachable hre room q hq
  have hhead := h2 u hpu
  cases hl : q.entries with
  | nil =>
    rw [hl] at hhead
    exact Option.noConfusion hhead
  | cons e t =>
    rw [hl] at hhead
    have heu : e.user_mxid = u := by simpa using hhead
    refine ⟨e, t, rfl, heu, ?_, ?_⟩
    · intro ht
      subst ht
      rw [handleTimeout_fire hq hpu hl heu]
      rw [if_neg (fun hh => hh rfl)]
      have hidle : IdleQ (RoomQueue.mk q.room_id q.teacher_mxid q.teacher_label
          q.teacher_localpart [] QueueState.free none none none) :=
        ⟨rfl, fun h => h rfl, fun h => h rfl⟩
      rw [maybeCleanup_upd_idle hidle]
      constructor
      · rw [getQ_del_self]
      · unfold getSnapshot
        rw [getQ_del_self]
    · intro e2 t2 ht
      subst ht
      rw [handleTimeout_fire hq hpu hl heu]
      rw [if_pos (List.cons_ne_nil e2 t2)]
      have hlive : ¬ IdleQ (RoomQueue.mk q.room_id q.teacher_mxid q.teacher_label
          q.teacher_localpart (e2 :: t2) QueueState.free none none none) :=
        fun hh => List.cons_ne_nil e2 t2 hh.1
      rw [maybeCleanup_upd_live hlive]
      rw [@notifyNext_fire
        (upd s room (RoomQueue.mk q.room_id q.teacher_mxid q.teacher_label
          q.teacher_localpart (e2 :: t2) QueueState.free none none none)) room
        (RoomQueue.mk q.room_id q.teacher_mxid q.teacher_label
          q.teacher_localpart (e2 :: t2) QueueState.free none none none) e2 t2
        (getQ_upd_self s room _) rfl rfl
        (fun hh => Option.noConfusion hh) (fun hh => Option.noConfusion hh)]
      exact ⟨_, getQ_upd_self _ room _, rfl, rfl, rfl, rfl⟩

theorem timeout_expiry_witness :
    (getQ (handleTimeout wReg2 "R" "A") "R").isSome = true := by
  obtain ⟨e, t, he, -, -, hcons⟩ :=
    (timeout_expiry wReg2 "R" "A").1 wQ2 ⟨wOps2, rfl⟩ rfl rfl
  injection he with h1 h2
  obtain ⟨q2, hq2, -, -, -, -⟩ := hcons ⟨"B", "nB", 1⟩ [] h2.symm
  rw [hq2]
  rfl


/-! Entries after enqueue sequences, for the FIFO claim. -/

theorem enqueue_entries_new {s : Registry} {room : String}
    (tm tl tlp u nt : String) (now : Nat) (h : getQ s room = none) :
    ∃ q1, getQ ((enqueue s room tm tl tlp u nt now).1) room = some q1 ∧
      q1.entries = [(⟨u, nt, now⟩ : QueueEntry)] := by
  rw [enqueue_none_eq tm tl tlp u nt now h]
  obtain ⟨q', hgq, hent, -, -, -, -, -⟩ :=
    getQ_notifyNext_entries (getQ_upd_self s room
      (RoomQueue.mk room tm tl tlp [⟨u, nt, now⟩] QueueState.free none none none))
  exact ⟨q', hgq, hent⟩

theorem enqueue_entries_append {s : Registry} {room : String}
    (tm tl tlp u nt : String) (now : Nat) {q0 : RoomQueue}
    (h : getQ s room = some q0) (hu : posOf q0.entries u = none) :
    ∃ q1, getQ ((enqueue s room tm tl tlp u nt now).1) room = some q1 ∧
      q1.entries = q0.entries ++ [(⟨u, nt, now⟩ : QueueEntry)] := by
  rw [enqueue_some_eq tm tl tlp u nt now h]
  rw [enqueueCore_append nt now
    (show posOf (refreshMeta q0 tm tl tlp).entries u = none from hu)]
  split
  · obtain ⟨q', hgq, hent, -, -, -, -, -⟩ :=
      getQ_notifyNext_entries (getQ_upd_self s room
        { refreshMeta q0 tm tl tlp with
          entries := (refreshMeta q0 tm tl tlp).entries ++ [(⟨u, nt, now⟩ : QueueEntry)] })
    exact ⟨q', hgq, hent⟩
  · exact ⟨_, getQ_upd_self s room _, rfl⟩

theorem runEnqueues_entries (room : String) : ∀ (reqs : List EnqReq) (s : Registry)
    (q : RoomQueue), getQ s room = some q →
    (q.entries.map (·.user_mxid) ++ reqs.map (·.user_mxid)).Nodup →
    ∃ qf, getQ (runEnqueues s room reqs) room = some qf ∧
      qf.entries = q.entries ++ reqs.map toEntry := by
  intro reqs
  induction reqs with
  | nil =>
    intro s q hq _
    exact ⟨q, hq, by simp⟩
  | cons r rest ih =>
    intro s q hq hnd
    have hru : r.user_mxid ∉ q.entries.map (·.user_mxid) := by
      rw [List.nodup_append] at hnd
      exact fun hmem => hnd.2.2 hmem (by simp)
    have hpos : posOf q.entries r.user_mxid = none := by
      rw [posOf_eq_none]
      intro e he hh
      exact hru (hh ▸ List.mem_map_of_mem _ he)
    obtain ⟨q1, hq1, he1⟩ := enqueue_entries_append r.teacher_mxid r.teacher_label
      r.teacher_localpart r.user_mxid r.notify_room_id r.requested_at hq hpos
    have hnd1 : (q1.entries.map (·.user_mxid) ++ rest.map (·.user_mxid)).Nodup := by
      rw [he1]
      simp only [List.map_append]
      rw [List.append_assoc]
      simpa [toEntry] using hnd
    obtain ⟨qf, hqf, hef⟩ := ih _ q1 hq1 hnd1
    refine ⟨qf, hqf, ?_⟩
    rw [hef, he1]
    simp [toEntry]

/-- Claim C3: starting from a room with no registered queue, a sequence of
`enqueue` calls with pairwise-distinct users produces a snapshot that lists
exactly those users, in call order, with positions 1..n assigned in that
order (strict FIFO: insertion order = arrival order = serving order). -/
theorem fifo_snapshot (s : Registry) (room : String) (reqs : List EnqReq)
    (h0 : getQ s room = none) (hnd : (reqs.map (·.user_mxid)).Nodup) :
    ((getSnapshot (runEnqueues s room reqs) room).entries.map (·.user_mxid) =
      reqs.map (·.user_mxid)) ∧
    ((getSnapshot (runEnqueues s room reqs) room).entries.map (·.position) =
      List.range' 1 reqs.length) := by
  cases reqs with
  | nil =>
    unfold getSnapshot
    rw [show getQ (runEnqueues s room []) room = none from h0]
    exact ⟨rfl, rfl⟩
  | cons r rest =>
    obtain ⟨q1, hq1, he1⟩ := enqueue_entries_new r.teacher_mxid r.teacher_label
      r.teacher_localpart r.user_mxid r.notify_room_id r.requested_at h0
    have hnd1 : (q1.entries.map (·.user_mxid) ++ rest.map (·.user_mxid)).Nodup := by
      rw [he1]
      simpa [toEntry] using hnd
    obtain ⟨qf, hqf, hef⟩ := runEnqueues_entries room rest _ q1 hq1 hnd1
    have hsnap : getSnapshot (runEnqueues s room (r :: rest)) room =
        ⟨qf.state, snapList qf.pending_user qf.active_user 0 qf.entries⟩ := by
      unfold getSnapshot
      rw [show getQ (runEnqueues s room (r :: rest)) room = some qf from hqf]
    rw [hsnap]
    constructor
    · show (snapList qf.pending_user qf.active_user 0 qf.entries).map (·.user_mxid) = _
      rw [snapList_map_user, hef, he1]
      simp [toEntry]
    · show (snapList qf.pending_user qf.active_user 0 qf.entries).map (·.position) = _
      rw [snapList_map_position, hef, he1]
      congr 1
      simp

theorem fifo_snapshot_witness :
    (getSnapshot (runEnqueues emptyReg "R" wReqs) "R").entries.map (·.user_mxid) =
      ["A", "B"] :=
  (fifo_snapshot emptyReg "R" wReqs rfl (by decide)).1


/-- After any `enqueue` of `u`, `u` sits in the room's entries and its 1-based
position is the returned one. -/
theorem enqueue_pos_some (s : Registry) (room tm tl tlp u nt : String) (now : Nat) :
    ∃ q1, getQ ((enqueue s room tm tl tlp u nt now).1) room = some q1 ∧
      posOf q1.entries u = some ((enqueue s room tm tl tlp u nt now).2.1) := by
  cases hq : getQ s room with
  | none =>
    rw [enqueue_none_eq tm tl tlp u nt now hq]
    obtain ⟨q', hgq, hent, -, -, -, -, -⟩ :=
      getQ_notifyNext_entries (getQ_upd_self s room
        (RoomQueue.mk room tm tl tlp [⟨u, nt, now⟩] QueueState.free none none none))
    refine ⟨q', hgq, ?_⟩
    rw [hent]
    show posOf [(⟨u, nt, now⟩ : QueueEntry)] u = some 1
    simp [posOf]
  | some q0 =>
    rw [enqueue_some_eq tm tl tlp u nt now hq]
    cases hp : posOf (refreshMeta q0 tm tl tlp).entries u with
    | some p =>
      rw [enqueueCore_found nt now hp]
      exact ⟨refreshMeta q0 tm tl tlp, getQ_upd_self s room _, hp⟩
    | none =>
      rw [enqueueCore_append nt now hp]
      have hpos : posOf ((refreshMeta q0 tm tl tlp).entries ++
          [(⟨u, nt, now⟩ : QueueEntry)]) u =
          some ((refreshMeta q0 tm tl tlp).entries.length + 1) :=
        posOf_append_last hp rfl
      split
      · obtain ⟨q', hgq, hent, -, -, -, -, -⟩ :=
          getQ_notifyNext_entries (getQ_upd_self s room
            { refreshMeta q0 tm tl tlp with
              entries := (refreshMeta q0 tm tl tlp).entries ++
                [(⟨u, nt, now⟩ : QueueEntry)] })
        refine ⟨q', hgq, ?_⟩
        rw [hent]
        show posOf ((refreshMeta q0 tm tl tlp).entries ++
            [(⟨u, nt, now⟩ : QueueEntry)]) u =
          some ((refreshMeta q0 tm tl tlp).entries ++
            [(⟨u, nt, now⟩ : QueueEntry)]).length
        rw [hpos]
        simp
      · refine ⟨_, getQ_upd_self s room _, ?_⟩
        show posOf ((refreshMeta q0 tm tl tlp).entries ++
            [(⟨u, nt, now⟩ : QueueEntry)]) u =
          some ((refreshMeta q0 tm tl tlp).entries ++
            [(⟨u, nt, now⟩ : QueueEntry)]).length
        rw [hpos]
        simp

/-- Claim C5: enqueue is idempotent per user — an immediately repeated
`enqueue` for the same user returns the same 1-based position with
`added = False`, and changes nothing except the refreshed teacher metadata
(entries, state, pending and active users, pending task, and all other rooms
are untouched). -/
theorem enqueue_idempotent (s : Registry)
    (room tm tl tlp u nt tm2 tl2 tlp2 nt2 : String) (n1 n2 : Nat) :
    (enqueue ((enqueue s room tm tl tlp u nt n1).1) room tm2 tl2 tlp2 u nt2 n2).2.1 =
      (enqueue s room tm tl tlp u nt n1).2.1 ∧
    (enqueue ((enqueue s room tm tl tlp u nt n1).1) room tm2 tl2 tlp2 u nt2 n2).2.2 =
      false ∧
    (∃ q1 q2,
      getQ ((enqueue s room tm tl tlp u nt n1).1) room = some q1 ∧
      getQ ((enqueue ((enqueue s room tm tl tlp u nt n1).1) room
        tm2 tl2 tlp2 u nt2 n2).1) room = some q2 ∧
      q2.entries = q1.entries ∧ q2.state = q1.state ∧
      q2.pending_user = q1.pending_user ∧ q2.pending_task = q1.pending_task ∧
      q2.active_user = q1.active_user) ∧
    (∀ r, r ≠ room →
      getQ ((enqueue ((enqueue s room tm tl tlp u nt n1).1) room
        tm2 tl2 tlp2 u nt2 n2).1) r =
      getQ ((enqueue s room tm tl tlp u nt n1).1) r) := by
  obtain ⟨q1, hq1, hpos⟩ := enqueue_pos_some s room tm tl tlp u nt n1
  have h2 := enqueue_some_eq tm2 tl2 tlp2 u nt2 n2 hq1
  have hp2 : posOf (refreshMeta q1 tm2 tl2 tlp2).entries u =
      some ((enqueue s room tm tl tlp u nt n1).2.1) := hpos
  have h3 := @enqueueCore_found ((enqueue s room tm tl tlp u nt n1).1) room
    (refreshMeta q1 tm2 tl2 tlp2) u ((enqueue s room tm tl tlp u nt n1).2.1)
    nt2 n2 hp2
  rw [h2, h3]
  refine ⟨rfl, rfl,
    ⟨q1, refreshMeta q1 tm2 tl2 tlp2, hq1, getQ_upd_self _ room _,
      rfl, rfl, rfl, rfl, rfl⟩, ?_⟩
  intro r hr
  exact getQ_upd_ne hr _ _

/-- Counterexample to claim C6: `release_current` on a room with no
registered queue returns `ok = False` with the "no queue for this room"
message in the released slot — not `ok` with `released_user_id = None`. -/
theorem release_unknown_counterexample :
    (releaseCurrent emptyReg "R").2.1 = false ∧
    (releaseCurrent emptyReg "R").2.2 ≠ none := by
  decide

/-- Claim C6 (amended): `release_current` on a room with no registered queue
does not crash and leaves the registry unchanged, but it reports failure: it
returns `ok = False` with the message "No existe una cola para esta sala."
in the second slot instead of behaving like the release of an empty queue. -/
theorem release_unknown_room (s : Registry) (room : String)
    (h : getQ s room = none) :
    releaseCurrent s room = (s, false, some noQueueMsg) :=
  releaseCurrent_none h

theorem release_unknown_room_witness :
    releaseCurrent emptyReg "R" = (emptyReg, false, some noQueueMsg) :=
  release_unknown_room emptyReg "R" rfl

/-- Counterexample to claim C7: after a successful `confirm_access` the
confirmed user still appears in the entries of a subsequent snapshot. -/
theorem confirm_keeps_entry_counterexample :
    (confirmAccess wReg1 "R" "alice").2.1 = true ∧
    ((getSnapshot ((confirmAccess wReg1 "R" "alice").1) "R").entries.map
      (·.user_mxid)) = ["alice"] := by
  decide

/-- Claim C7 (amended): a successful `confirm_access(room, u)` does NOT
remove `u`'s entry from `entries`: the entries list is unchanged and `u`
remains at position 1 of a subsequent snapshot with status "active"; the
entry is only removed later by release, leave, departure or timeout. -/
theorem confirm_keeps_entry (s s1 : Registry) (room u m : String)
    (hre : Reachable s) (hc : confirmAccess s room u = (s1, true, m)) :
    ∃ q q1, getQ s room = some q ∧ getQ s1 room = some q1 ∧
      q1.entries = q.entries ∧
      ∃ e, (getSnapshot s1 room).entries.head? = some e ∧
        e.position = 1 ∧ e.user_mxid = u ∧ e.status = "active" := by
  cases hq : getQ s room with
  | none =>
    rw [confirmAccess_none u hq] at hc
    exact Bool.noConfusion (congrArg (fun x => x.2.1) hc)
  | some q =>
    rw [confirmAccess_some u hq] at hc
    by_cases hp : q.pending_user ≠ some u
    · rw [if_pos hp] at hc
      exact Bool.noConfusion (congrArg (fun x => x.2.1) hc)
    · rw [if_neg hp] at hc
      rw [not_ne_iff] at hp
      have hs1 : upd s room
          { q with state := QueueState.occupied, active_user := some u,
                   pending_user := none, pending_task := none } = s1 :=
        congrArg Prod.fst hc
      obtain ⟨-, h2, -, -, -⟩ := allInv_reachable hre room q hq
      have hhead := h2 u hp
      obtain ⟨e, t, hl⟩ : ∃ e t, q.entries = e :: t := by
        cases hx : q.entries with
        | nil =>
          rw [hx] at hhead
          exact Option.noConfusion hhead
        | cons e t => exact ⟨e, t, rfl⟩
      have heu : e.user_mxid = u := by
        rw [hl] at hhead
        simpa using hhead
      refine ⟨q,
        { q with state := QueueState.occupied, active_user := some u,
                 pending_user := none, pending_task := none },
        rfl, ?_, rfl, ?_⟩
      · rw [← hs1]
        exact getQ_upd_self s room _
      · have hsnap : getSnapshot s1 room =
            ⟨QueueState.occupied, snapList none (some u) 0 q.entries⟩ := by
          unfold getSnapshot
          rw [← hs1, getQ_upd_self]
        rw [hsnap, hl]
        refine ⟨⟨1, e.user_mxid, "active", e.requested_at⟩, ?_, rfl, heu, rfl⟩
        show (snapList none (some u) 0 (e :: t)).head? =
          some ⟨1, e.user_mxid, "active", e.requested_at⟩
        simp [snapList, heu]

theorem confirm_keeps_entry_witness :
    ((getSnapshot ((confirmAccess wReg1 "R" "alice").1) "R").entries.map
      (·.user_mxid)).head? = some "alice" ∧
    ((getSnapshot ((confirmAccess wReg1 "R" "alice").1) "R").entries.map
      (·.status)).head? = some "active" := by
  obtain ⟨q, q1, -, -, -, e, hhead, -, heu, hst⟩ :=
    confirm_keeps_entry wReg1 ((confirmAccess wReg1 "R" "alice").1) "R" "alice"
      ((confirmAccess wReg1 "R" "alice").2.2) ⟨wOps1, rfl⟩ rfl
  constructor
  · rw [List.head?_map, hhead]
    simp [heu]
  · rw [List.head?_map, hhead]
    simp [hst]

/-- Counterexample to claim C9: an `enqueue` passing the empty string as
`teacher_label` does not overwrite the stored label — the stored value stays
"Prof", not the passed "". -/
theorem teacher_meta_counterexample :
    ((getQ ((enqueue wReg1 "R" "t2" "" "p2" "B" "nB" 1).1) "R").map
      (·.teacher_label)) = some "Prof" ∧ "Prof" ≠ "" := by
  decide

/-- Claim C9 (amended): teacher display metadata is refreshed per field on
each enqueue of an existing room, but with Python `or` semantics — a passed
non-empty value overwrites the stored one, a passed empty string keeps the
stored value. -/
theorem teacher_meta_refresh (s : Registry) (room tm tl tlp u nt : String)
    (now : Nat) (q0 : RoomQueue) (h : getQ s room = some q0) :
    ∃ q1, getQ ((enqueue s room tm tl tlp u nt now).1) room = some q1 ∧
      q1.teacher_mxid = (if tm ≠ "" then tm else q0.teacher_mxid) ∧
      q1.teacher_label = (if tl ≠ "" then tl else q0.teacher_label) ∧
      q1.teacher_localpart = (if tlp ≠ "" then tlp else q0.teacher_localpart) := by
  rw [enqueue_some_eq tm tl tlp u nt now h]
  cases hp : posOf (refreshMeta q0 tm tl tlp).entries u with
  | some p =>
    rw [enqueueCore_found nt now hp]
    exact ⟨refreshMeta q0 tm tl tlp, getQ_upd_self s room _, rfl, rfl, rfl⟩
  | none =>
    rw [enqueueCore_append nt now hp]
    split
    · obtain ⟨q', hgq, -, -, -, htm, htl, htlp⟩ :=
        getQ_notifyNext_entries (getQ_upd_self s room
          { refreshMeta q0 tm tl tlp with
            entries := (refreshMeta q0 tm tl tlp).entries ++
              [(⟨u, nt, now⟩ : QueueEntry)] })
      exact ⟨q', hgq, htm, htl, htlp⟩
    · exact ⟨_, getQ_upd_self s room _, rfl, rfl, rfl⟩

theorem teacher_meta_refresh_witness :
    ((getQ ((enqueue wReg1 "R" "t2" "" "p2" "B" "nB" 1).1) "R").map
      (·.teacher_label)) = some "Prof" := by
  obtain ⟨q1, hg, -, hlb, -⟩ :=
    teacher_meta_refresh wReg1 "R" "t2" "" "p2" "B" "nB" 1 wQ1 rfl
  rw [hg]
  simp [hlb, wQ1]

end TutoringQueue
